import Mathlib

/-!
Verification of the realtime transcription subsystem
(`src/realtime/realtime_transcriber.py`, class `RealtimeTranscriber`).

The Python code is shallowly embedded: the mutable object state becomes the
structure `TState`, float samples become exact rationals, numpy slice
assignments become `setSlice`, and the external recognition engine becomes an
explicit function argument returning `Except` (an exception raised by the
engine is the `.error` case).
-/

namespace Insightron

/-- `setSlice l s xs` is the numpy slice assignment `l[s : s + len(xs)] = xs`. -/
def setSlice (l : List α) (s : Nat) (xs : List α) : List α :=
  l.take s ++ xs ++ l.drop (s + xs.length)

/-! ### Data model

`TState` embeds the mutable attributes of `RealtimeTranscriber` that the
realtime pipeline touches.  Float32 samples are modelled as exact rationals.
Callbacks are modelled by the list of texts delivered; the optional
`result_callback` attribute is modelled by the flag `has_result_callback`. -/

/-- A transcription segment: `{'start': seg.start, 'end': seg.end, 'text': seg.text}`. -/
structure Seg where
  start : ℚ
  end_ : ℚ
  text : String
deriving DecidableEq

structure TState where
  is_running : Bool
  stream : Option Unit
  process_thread : Option Unit
  stop_event : Bool
  ring_buffer : List ℚ
  write_index : Nat
  transcribed_text : String
  language : String
  transcribed_segments : List Seg
  detected_language : Option String
  full_audio_buffer : List (List ℚ)
  has_result_callback : Bool
deriving DecidableEq

/-- Per-instance configuration derived in `__init__` (buffer_size, chunk_samples,
stride_samples, silence_threshold, sample_rate, channels). -/
structure Config where
  buffer_size : Nat
  chunk_samples : Nat
  stride_samples : Nat
  silence_threshold : ℚ
  sample_rate : Nat
  channels : Nat
deriving DecidableEq

/-- The buffer/state reset performed by `start_transcription` (lines 104-110):
`ring_buffer.fill(0)`, `write_index = 0`, clear the recording log, text,
segments and detected language. -/
def reset_buffers (cap : Nat) (st : TState) : TState :=
  { st with
    ring_buffer := List.replicate cap 0
    write_index := 0
    full_audio_buffer := []
    transcribed_text := ""
    transcribed_segments := []
    detected_language := none }

/-! ### Ring buffer write (lines 199-211 of `_process_loop`) -/

/-- The ring-buffer update in `_process_loop`:
```
num_samples = len(data)
if self.write_index + num_samples > self.buffer_size:
    diff = self.buffer_size - self.write_index
    self.ring_buffer[self.write_index:] = data[:diff, 0]
    self.ring_buffer[:num_samples - diff] = data[diff:, 0]
    self.write_index = num_samples - diff
else:
    self.ring_buffer[self.write_index:self.write_index + num_samples] = data[:, 0]
    self.write_index += num_samples
```
-/
def ring_write (cap : Nat) (st : TState) (data : List ℚ) : TState :=
  if cap < st.write_index + data.length then
    { st with
      ring_buffer :=
        setSlice (setSlice st.ring_buffer st.write_index (data.take (cap - st.write_index)))
          0 (data.drop (cap - st.write_index))
      write_index := data.length - (cap - st.write_index) }
  else
    { st with
      ring_buffer := setSlice st.ring_buffer st.write_index data
      write_index := st.write_index + data.length }

/-- The trailing-window extraction in `_run_inference` (lines 228-234),
generalized over the window length `n` (the source calls it with
`n = chunk_samples`); this is the spec's `RingBuffer.read_last(n)`:
```
if self.write_index >= self.chunk_samples:
    audio_chunk = self.ring_buffer[self.write_index - self.chunk_samples : self.write_index]
else:
    part2 = self.ring_buffer[:self.write_index]
    part1 = self.ring_buffer[-(self.chunk_samples - len(part2)):]
    audio_chunk = np.concatenate((part1, part2))
```
-/
def read_last (st : TState) (n : Nat) : List ℚ :=
  if n ≤ st.write_index then
    (st.ring_buffer.drop (st.write_index - n)).take n
  else
    st.ring_buffer.drop (st.ring_buffer.length - (n - st.write_index)) ++
      st.ring_buffer.take st.write_index

/-- Folding the writes of a whole frame sequence through the ring buffer. -/
def write_frames (cap : Nat) (st : TState) (frames : List (List ℚ)) : TState :=
  frames.foldl (ring_write cap) st

/-! ### Ring buffer correctness invariant

`stream` is the concatenation of all samples written since the reset.  The
witness `m` counts completed laps of the cursor: `stream.length =
write_index + m * cap`.  Positions below the cursor hold the latest lap,
positions at or above it hold the previous lap (or the initial zero fill). -/

def RingInv (cap : Nat) (stream : List ℚ) (st : TState) : Prop :=
  st.ring_buffer.length = cap ∧
  ∃ m : Nat,
    stream.length = st.write_index + m * cap ∧
    st.write_index ≤ cap ∧
    (st.write_index = 0 → m = 0) ∧
    (∀ p, p < st.write_index →
      st.ring_buffer.getD p 0 = stream.getD (m * cap + p) 0) ∧
    (∀ p, st.write_index ≤ p → p < cap →
      st.ring_buffer.getD p 0 = if m = 0 then 0 else stream.getD ((m - 1) * cap + p) 0)

/-! ### Inference (`_run_inference`, lines 223-276)

The external recognition engine (`self.model_manager.transcribe`) is passed in
as a function from the audio window to `Except Unit (segments, info)`; the
`.error` case models the engine raising an exception (caught at lines
275-276).  `info` is modelled as `Option String` carrying `info.language`
(`none` models a falsy `info`).  The returned `Nat` counts engine calls and
the returned `List String` is the sequence of `result_callback` invocations. -/

/-- Python `sep.join(strings)` (structural recursion so values compute). -/
def pyJoin (sep : String) : List String → String
  | [] => ""
  | [s] => s
  | s :: t :: rest => s ++ sep ++ pyJoin sep (t :: rest)

/-- Python `s.strip()`: remove leading and trailing whitespace. -/
def pyStrip (s : String) : String :=
  ⟨((s.data.dropWhile Char.isWhitespace).reverse.dropWhile Char.isWhitespace).reverse⟩

def sumSq (w : List ℚ) : ℚ := (w.map (fun x => x * x)).sum

/-- The silence test (lines 237-238): `rms = np.sqrt(np.mean(audio_chunk**2))`
then `rms < self.silence_threshold`.  In exact arithmetic, for a nonnegative
threshold `t` and a nonempty window, `sqrt(sumSq w / len w) < t` iff
`sumSq w < t ^ 2 * len w`; the squared form is used so the definition stays
executable.  The equivalence with the source's square-root form is proved in
`rms_below_iff_sqrt`. -/
def rms_below (w : List ℚ) (t : ℚ) : Bool :=
  decide (sumSq w < t ^ 2 * (w.length : ℚ))

def EngineResult := Except Unit (List Seg × Option String)

/-- `_run_inference`: extract the trailing `chunk_samples` window, skip if
silent, call the engine, record the detected language from the first result
with a truthy `info`, and on non-empty joined text append the segments and
fire the text callback.  Returns (new state, engine call count, callback
texts). -/
def run_inference (cfg : Config) (engine : List ℚ → EngineResult) (st : TState) :
    TState × Nat × List String :=
  let audio_chunk := read_last st cfg.chunk_samples
  if rms_below audio_chunk cfg.silence_threshold then
    (st, 0, [])
  else
    match engine audio_chunk with
    | .error _ => (st, 1, [])
    | .ok (segments, info) =>
      let text := pyStrip (pyJoin " " (segments.map Seg.text))
      let st1 :=
        match st.detected_language, info with
        | none, some l => { st with detected_language := some l }
        | _, _ => st
      if text = "" then (st1, 1, [])
      else
        let st2 := { st1 with
          transcribed_segments := st1.transcribed_segments ++ segments }
        if st2.has_result_callback then (st2, 1, [text]) else (st2, 1, [])

/-! ### Processor loop (`_process_loop`, lines 184-221) -/

/-- One iteration of the consumer loop body for a dequeued frame `data`
(lines 199-218): write into the ring buffer, add the frame length to the
stride counter, and when `accumulated_samples >= stride_samples` run
inference and reset the counter to zero.  Returns ((state, counter),
inference invocations, engine calls, callback texts). -/
def process_step (cfg : Config) (engine : List ℚ → EngineResult)
    (st : TState) (accumulated_samples : Nat) (data : List ℚ) :
    (TState × Nat) × Nat × Nat × List String :=
  let st1 := ring_write cfg.buffer_size st data
  let acc := accumulated_samples + data.length
  if cfg.stride_samples ≤ acc then
    let r := run_inference cfg engine st1
    ((r.1, 0), 1, r.2.1, r.2.2)
  else
    ((st1, acc), 0, 0, [])

/-- The consumer loop over a finite queue of frames. -/
def process_loop (cfg : Config) (engine : List ℚ → EngineResult) :
    TState × Nat → List (List ℚ) → (TState × Nat) × Nat × Nat × List String
  | sa, [] => (sa, 0, 0, [])
  | sa, data :: rest =>
    let r := process_step cfg engine sa.1 sa.2 data
    let r' := process_loop cfg engine r.1 rest
    (r'.1, r.2.1 + r'.2.1, r.2.2.1 + r'.2.2.1, r.2.2.2 ++ r'.2.2.2)

/-! ### Lifecycle (`stop_transcription`, lines 137-154) -/

/-- `stop_transcription`: set `is_running = False`, set the stop event, close
and clear the stream (the close errors are caught), join and clear the
processor thread.  Both `if self.stream:` and `if self.process_thread:`
guards leave the handle `None` afterwards in every case. -/
def stop_transcription (st : TState) : TState :=
  { st with
    is_running := false
    stop_event := true
    stream := none
    process_thread := none }

/-- The spec's `Idle` session state: not running, stream handle cleared,
processor thread handle cleared. -/
def isIdle (st : TState) : Prop :=
  st.is_running = false ∧ st.stream = none ∧ st.process_thread = none

/-! ### Export (`save_recording`, lines 278-303) -/

/-- The WAV artifact written by `save_recording`: header fields set by
`wf.setnchannels / wf.setsampwidth / wf.setframerate` and the int16 frames. -/
structure WavFile where
  path : String
  nchannels : Nat
  sampwidth : Nat
  framerate : Nat
  frames : List ℤ
deriving DecidableEq

/-- `np.int16(q)` for an in-range float value: C-style truncation toward
zero. -/
def int16_of (q : ℚ) : ℤ := if 0 ≤ q then ⌊q⌋ else ⌈q⌉

/-- `save_recording`: return `None` on an empty recording log; otherwise
concatenate and flatten the log, convert with `np.int16(full_audio * 32767)`,
and write a mono 16-bit WAV at the session sample rate, returning the path. -/
def save_recording (cfg : Config) (st : TState) (output_path : String) :
    Option WavFile :=
  if st.full_audio_buffer = [] then none
  else
    let full_audio := st.full_audio_buffer.flatten
    let audio_int16 := full_audio.map (fun x => int16_of (x * 32767))
    some { path := output_path
           nchannels := cfg.channels
           sampwidth := 2
           framerate := cfg.sample_rate
           frames := audio_int16 }

/-! ### Transcript query (`get_transcription_data`, lines 305-314) -/

structure TranscriptionData where
  text : String
  language : String
  segments : List Seg
deriving DecidableEq

/-- `get_transcription_data`: join segment texts; the language is
`self.detected_language or self.language` — Python `or`, under which both
`None` and the empty string fall through to the configured language. -/
def get_transcription_data (st : TState) : TranscriptionData :=
  { text := pyStrip (pyJoin " " (st.transcribed_segments.map Seg.text))
    language :=
      match st.detected_language with
      | some l => if l = "" then st.language else l
      | none => st.language
    segments := st.transcribed_segments }

/-- A concrete state used by witnesses and counterexamples. -/
def stEx : TState :=
  { is_running := false
    stream := none
    process_thread := none
    stop_event := false
    ring_buffer := []
    write_index := 0
    transcribed_text := ""
    language := "en"
    transcribed_segments := []
    detected_language := none
    full_audio_buffer := []
    has_result_callback := true }

/-- A small concrete configuration (silence threshold 0.015 as in
`REALTIME_SILENCE_THRESHOLD`'s default). -/
def cfgEx : Config :=
  { buffer_size := 4
    chunk_samples := 2
    stride_samples := 2
    silence_threshold := 3 / 200
    sample_rate := 16000
    channels := 1 }

/-- A state whose trailing window `[1, 1]` is far above the silence
threshold. -/
def stLoud : TState :=
  { stEx with ring_buffer := [1, 1, 0, 0], write_index := 2 }

/-- An engine that always raises. -/
def engineErr : List ℚ → EngineResult := fun _ => Except.error ()

/-! ### List helpers (numpy slice reads/writes on 1-d arrays) -/

theorem setSlice_length (l : List α) (s : Nat) (xs : List α)
    (h : s + xs.length ≤ l.length) : (setSlice l s xs).length = l.length := by
  simp [setSlice]
  omega

theorem getD_drop' (l : List α) (a j : Nat) (d : α) :
    (l.drop a).getD j d = l.getD (a + j) d := by
  induction l generalizing a j with
  | nil => simp [List.getD]
  | cons x t ih =>
    cases a with
    | zero => simp
    | succ a' =>
      simp only [List.drop_succ_cons]
      rw [ih]
      have h1 : a' + 1 + j = (a' + j) + 1 := by omega
      rw [h1, List.getD_cons_succ]

theorem getD_take_lt (l : List α) (a j : Nat) (d : α) (h : j < a) :
    (l.take a).getD j d = l.getD j d := by
  induction l generalizing a j with
  | nil => simp
  | cons x t ih =>
    cases a with
    | zero => omega
    | succ a' =>
      cases j with
      | zero => simp
      | succ j' =>
        simp only [List.take_succ_cons, List.getD_cons_succ]
        exact ih a' j' (by omega)

theorem getD_append_left' (l₁ l₂ : List α) (i : Nat) (d : α) (h : i < l₁.length) :
    (l₁ ++ l₂).getD i d = l₁.getD i d := by
  induction l₁ generalizing i with
  | nil => simp at h
  | cons x t ih =>
    cases i with
    | zero => simp
    | succ i' =>
      simp only [List.cons_append, List.getD_cons_succ]
      exact ih i' (by simpa using Nat.lt_of_succ_lt_succ h)

theorem getD_append_right' (l₁ l₂ : List α) (i : Nat) (d : α) (h : l₁.length ≤ i) :
    (l₁ ++ l₂).getD i d = l₂.getD (i - l₁.length) d := by
  induction l₁ generalizing i with
  | nil => simp
  | cons x t ih =>
    cases i with
    | zero => simp at h
    | succ i' =>
      simp only [List.cons_append, List.getD_cons_succ, List.length_cons]
      rw [ih i' (by simpa using Nat.le_of_succ_le_succ h)]
      congr 1
      omega

theorem getD_replicate' (n i : Nat) (x d : α) (h : i < n) :
    (List.replicate n x).getD i d = x := by
  induction n generalizing i with
  | zero => omega
  | succ n' ih =>
    cases i with
    | zero => simp [List.replicate]
    | succ i' => simpa [List.replicate] using ih i' (by omega)

theorem getD_of_length_le (l : List α) (i : Nat) (d : α) (h : l.length ≤ i) :
    l.getD i d = d := by
  induction l generalizing i with
  | nil => simp [List.getD]
  | cons x t ih =>
    cases i with
    | zero => simp at h
    | succ i' => simpa using ih i' (by simpa using Nat.le_of_succ_le_succ h)

theorem setSlice_getD (l : List α) (s : Nat) (xs : List α) (p : Nat) (d : α)
    (h : s + xs.length ≤ l.length) :
    (setSlice l s xs).getD p d =
      if p < s then l.getD p d
      else if p < s + xs.length then xs.getD (p - s) d
      else l.getD p d := by
  have hs : s ≤ l.length := by omega
  have hts : (l.take s).length = s := by simp; omega
  by_cases h1 : p < s
  · rw [setSlice, List.append_assoc, getD_append_left' _ _ _ _ (by omega),
      getD_take_lt _ _ _ _ h1]
    simp [h1]
  · by_cases h2 : p < s + xs.length
    · rw [setSlice, List.append_assoc, getD_append_right' _ _ _ _ (by omega)]
      rw [getD_append_left' _ _ _ _ (by rw [hts]; omega)]
      rw [hts]
      simp [h1, h2]
    · rw [setSlice, List.append_assoc, getD_append_right' _ _ _ _ (by omega)]
      rw [getD_append_right' _ _ _ _ (by rw [hts]; omega)]
      rw [hts, getD_drop']
      have : s + xs.length + (p - s - xs.length) = p := by omega
      rw [this]
      simp [h1, h2]

theorem list_ext_getD (l₁ l₂ : List α) (d : α) (hlen : l₁.length = l₂.length)
    (h : ∀ i, i < l₁.length → l₁.getD i d = l₂.getD i d) : l₁ = l₂ := by
  induction l₁ generalizing l₂ with
  | nil => cases l₂ with
    | nil => rfl
    | cons y t => simp at hlen
  | cons x t ih =>
    cases l₂ with
    | nil => simp at hlen
    | cons y t' =>
      have h0 := h 0 (by simp)
      simp at h0
      subst h0
      have : t = t' := by
        refine ih t' (by simpa using hlen) ?_
        intro i hi
        simpa using h (i + 1) (by simpa using Nat.succ_lt_succ hi)
      rw [this]

theorem ringInv_reset (cap : Nat) (st : TState) :
    RingInv cap [] (reset_buffers cap st) := by
  refine ⟨by simp [reset_buffers], 0, by simp [reset_buffers], by simp [reset_buffers],
    fun _ => rfl, ?_, ?_⟩
  · intro p hp
    simp [reset_buffers] at hp
  · intro p _ hp2
    simp only [reset_buffers, if_pos rfl]
    exact getD_replicate' cap p 0 0 hp2

theorem ring_write_inv (cap : Nat) (hcap : 0 < cap) (stream : List ℚ) (st : TState)
    (h : RingInv cap stream st) (data : List ℚ) (hd : data.length ≤ cap) :
    RingInv cap (stream ++ data) (ring_write cap st data) := by
  obtain ⟨hlen, m, hT, hw, hw0, h1, h2⟩ := h
  by_cases hc : cap < st.write_index + data.length
  · -- wraparound branch
    have hrb : (ring_write cap st data).ring_buffer =
        setSlice (setSlice st.ring_buffer st.write_index (data.take (cap - st.write_index)))
          0 (data.drop (cap - st.write_index)) := by
      simp [ring_write, hc]
    have hwi : (ring_write cap st data).write_index =
        data.length - (cap - st.write_index) := by
      simp [ring_write, hc]
    have htake_len : (data.take (cap - st.write_index)).length = cap - st.write_index := by
      simp
      omega
    have hin_le : st.write_index + (data.take (cap - st.write_index)).length ≤
        st.ring_buffer.length := by
      rw [htake_len, hlen]
      omega
    have hinner_len :
        (setSlice st.ring_buffer st.write_index (data.take (cap - st.write_index))).length
          = cap := by
      rw [setSlice_length _ _ _ hin_le, hlen]
    have hdrop_len : (data.drop (cap - st.write_index)).length
        = data.length - (cap - st.write_index) := by simp
    have hout_le : 0 + (data.drop (cap - st.write_index)).length ≤
        (setSlice st.ring_buffer st.write_index (data.take (cap - st.write_index))).length := by
      rw [hinner_len, hdrop_len]
      omega
    have hmc : (m + 1) * cap = m * cap + cap := by ring
    unfold RingInv
    rw [hrb, hwi]
    refine ⟨?_, m + 1, ?_, by omega, by omega, ?_, ?_⟩
    · rw [setSlice_length _ _ _ hout_le, hinner_len]
    · simp only [List.length_append]
      omega
    · intro p hp
      rw [setSlice_getD _ _ _ _ _ hout_le, if_neg (by omega : ¬ p < 0),
        if_pos (by rw [hdrop_len]; omega), Nat.sub_zero, getD_drop']
      have hidx : stream.length ≤ (m + 1) * cap + p := by omega
      rw [getD_append_right' _ _ _ _ hidx]
      congr 1
      omega
    · intro p hp1 hp2
      rw [setSlice_getD _ _ _ _ _ hout_le, if_neg (by omega : ¬ p < 0),
        if_neg (by rw [hdrop_len]; omega), setSlice_getD _ _ _ _ _ hin_le,
        if_neg (by omega : ¬ m + 1 = 0), Nat.add_sub_cancel]
      by_cases hpw : p < st.write_index
      · rw [if_pos hpw, h1 p hpw]
        have hidx : m * cap + p < stream.length := by omega
        rw [getD_append_left' _ _ _ _ hidx]
      · rw [if_neg hpw, if_pos (by rw [htake_len]; omega),
          getD_take_lt _ _ _ _ (by omega)]
        have hidx : stream.length ≤ m * cap + p := by omega
        rw [getD_append_right' _ _ _ _ hidx]
        congr 1
        omega
  · -- no-wrap branch
    have hrb : (ring_write cap st data).ring_buffer =
        setSlice st.ring_buffer st.write_index data := by
      simp [ring_write, hc]
    have hwi : (ring_write cap st data).write_index =
        st.write_index + data.length := by
      simp [ring_write, hc]
    have hsl : st.write_index + data.length ≤ st.ring_buffer.length := by
      rw [hlen]
      omega
    have hmc : (m - 1) * cap + cap = m * cap ∨ m = 0 := by
      rcases Nat.eq_zero_or_pos m with hm0 | hpos
      · exact Or.inr hm0
      · left
        obtain ⟨m', rfl⟩ : ∃ m', m = m' + 1 := ⟨m - 1, by omega⟩
        simp only [Nat.add_sub_cancel]
        ring
    unfold RingInv
    rw [hrb, hwi]
    refine ⟨by rw [setSlice_length _ _ _ hsl, hlen], m, ?_, by omega, ?_, ?_, ?_⟩
    · simp only [List.length_append]
      omega
    · intro h0
      exact hw0 (by omega)
    · intro p hp
      rw [setSlice_getD _ _ _ _ _ hsl]
      by_cases hpw : p < st.write_index
      · rw [if_pos hpw, h1 p hpw]
        have hidx : m * cap + p < stream.length := by omega
        rw [getD_append_left' _ _ _ _ hidx]
      · rw [if_neg hpw, if_pos (by omega)]
        have hidx : stream.length ≤ m * cap + p := by omega
        rw [getD_append_right' _ _ _ _ hidx]
        congr 1
        omega
    · intro p hp1 hp2
      rw [setSlice_getD _ _ _ _ _ hsl, if_neg (by omega : ¬ p < st.write_index),
        if_neg (by omega), h2 p (by omega) hp2]
      rcases hmc with hmc | hm0
      · have hm : m ≠ 0 := by
          intro h0
          rw [h0] at hmc
          omega
        rw [if_neg hm, if_neg hm]
        have hidx : (m - 1) * cap + p < stream.length := by omega
        rw [getD_append_left' _ _ _ _ hidx]
      · simp [hm0]

theorem read_last_spec (cap : Nat) (hcap : 0 < cap) (stream : List ℚ) (st : TState)
    (h : RingInv cap stream st) (n : Nat) (hn : n ≤ cap) (hn2 : n ≤ stream.length) :
    read_last st n = stream.drop (stream.length - n) := by
  obtain ⟨hlen, m, hT, hw, hw0, h1, h2⟩ := h
  by_cases hc : n ≤ st.write_index
  · simp only [read_last, if_pos hc]
    apply list_ext_getD _ _ 0
    · simp [hlen]
      omega
    · intro i hi
      have hi' : i < n := by
        simp [hlen] at hi
        omega
      rw [getD_take_lt _ _ _ _ hi', getD_drop', h1 _ (by omega), getD_drop']
      congr 1
      omega
  · push_neg at hc
    have hm1 : 1 ≤ m := by
      rcases Nat.eq_zero_or_pos m with hm0 | hpos
      · subst hm0
        simp at hT
        omega
      · exact hpos
    obtain ⟨m', rfl⟩ : ∃ m', m = m' + 1 := ⟨m - 1, by omega⟩
    have hmc : (m' + 1) * cap = m' * cap + cap := by ring
    simp only [read_last, if_neg (by omega : ¬ n ≤ st.write_index)]
    have hplen : (st.ring_buffer.drop
        (st.ring_buffer.length - (n - st.write_index))).length = n - st.write_index := by
      simp [hlen]
      omega
    apply list_ext_getD _ _ 0
    · simp [hlen]
      omega
    · intro i hi
      have hi' : i < n := by
        simp [hlen] at hi
        omega
      rw [getD_drop' stream]
      by_cases hi2 : i < n - st.write_index
      · rw [getD_append_left' _ _ _ _ (by rw [hplen]; omega), getD_drop']
        rw [hlen]
        have hp1 : st.write_index ≤ cap - (n - st.write_index) + i := by omega
        have hp2 : cap - (n - st.write_index) + i < cap := by omega
        rw [h2 _ hp1 hp2, if_neg (Nat.succ_ne_zero m'), Nat.add_sub_cancel]
        congr 1
        omega
      · rw [getD_append_right' _ _ _ _ (by rw [hplen]; omega), hplen,
          getD_take_lt _ _ _ _ (by omega), h1 _ (by omega)]
        congr 1
        omega

theorem write_frames_inv (cap : Nat) (hcap : 0 < cap) (frames : List (List ℚ))
    (hfr : ∀ f ∈ frames, f.length ≤ cap) (stream : List ℚ) (st : TState)
    (h : RingInv cap stream st) :
    RingInv cap (stream ++ frames.flatten) (write_frames cap st frames) := by
  induction frames generalizing stream st with
  | nil => simpa [write_frames] using h
  | cons f rest ih =>
    have hstep := ring_write_inv cap hcap stream st h f (hfr f (by simp))
    have htail := ih (fun g hg => hfr g (by simp [hg])) (stream ++ f)
      (ring_write cap st f) hstep
    simpa [write_frames, List.append_assoc] using htail

/-! ### Helper lemmas -/

theorem ring_write_proj (cap : Nat) (st : TState) (data : List ℚ) :
    (ring_write cap st data).transcribed_segments = st.transcribed_segments ∧
    (ring_write cap st data).detected_language = st.detected_language ∧
    (ring_write cap st data).has_result_callback = st.has_result_callback ∧
    (ring_write cap st data).language = st.language ∧
    (ring_write cap st data).full_audio_buffer = st.full_audio_buffer := by
  unfold ring_write
  split <;> exact ⟨rfl, rfl, rfl, rfl, rfl⟩

/-- With an engine that raises, `_run_inference` leaves the state untouched
and fires no callback (the `except` at lines 275-276 swallows the error
before any mutation). -/
theorem run_inference_error_state (cfg : Config) (e : Unit) (st : TState) :
    (run_inference cfg (fun _ => Except.error e) st).1 = st ∧
    (run_inference cfg (fun _ => Except.error e) st).2.2 = ([] : List String) := by
  unfold run_inference
  by_cases h : rms_below (read_last st cfg.chunk_samples) cfg.silence_threshold
  · simp [h]
  · simp [h]

theorem process_step_error (cfg : Config) (e : Unit) (st : TState)
    (acc : Nat) (data : List ℚ) :
    (process_step cfg (fun _ => Except.error e) st acc data).1.1.transcribed_segments
      = st.transcribed_segments ∧
    (process_step cfg (fun _ => Except.error e) st acc data).1.1.detected_language
      = st.detected_language ∧
    (process_step cfg (fun _ => Except.error e) st acc data).2.2.2 = [] := by
  unfold process_step
  by_cases h : cfg.stride_samples ≤ acc + data.length
  · simp only [if_pos h]
    have he := run_inference_error_state cfg e (ring_write cfg.buffer_size st data)
    refine ⟨?_, ?_, ?_⟩
    · show (run_inference cfg (fun _ => Except.error e)
        (ring_write cfg.buffer_size st data)).1.transcribed_segments
          = st.transcribed_segments
      rw [he.1, (ring_write_proj cfg.buffer_size st data).1]
    · show (run_inference cfg (fun _ => Except.error e)
        (ring_write cfg.buffer_size st data)).1.detected_language
          = st.detected_language
      rw [he.1, (ring_write_proj cfg.buffer_size st data).2.1]
    · show (run_inference cfg (fun _ => Except.error e)
        (ring_write cfg.buffer_size st data)).2.2 = []
      exact he.2
  · simp only [if_neg h]
    exact ⟨(ring_write_proj cfg.buffer_size st data).1,
      (ring_write_proj cfg.buffer_size st data).2.1, trivial⟩

theorem process_loop_error (cfg : Config) (e : Unit) :
    ∀ (frames : List (List ℚ)) (st : TState) (acc : Nat),
    (process_loop cfg (fun _ => Except.error e) (st, acc) frames).2.2.2 = [] ∧
    (process_loop cfg (fun _ => Except.error e) (st, acc) frames).1.1.transcribed_segments
      = st.transcribed_segments ∧
    (process_loop cfg (fun _ => Except.error e) (st, acc) frames).1.1.detected_language
      = st.detected_language := by
  intro frames
  induction frames with
  | nil => exact fun st acc => ⟨rfl, rfl, rfl⟩
  | cons d rest ih =>
    intro st acc
    have hstep := process_step_error cfg e st acc d
    simp only [process_loop]
    rcases hps : process_step cfg (fun _ => Except.error e) st acc d with
      ⟨⟨st1, acc1⟩, f1, c1, t1⟩
    rw [hps] at hstep
    simp only at hstep
    have hih := ih st1 acc1
    refine ⟨?_, ?_, ?_⟩
    · simp only [hstep.2.2, List.nil_append]
      exact hih.1
    · rw [hih.2.1, hstep.1]
    · rw [hih.2.2, hstep.2.1]

theorem sumSq_nonneg (w : List ℚ) : 0 ≤ sumSq w := by
  unfold sumSq
  apply List.sum_nonneg
  intro x hx
  simp only [List.mem_map] at hx
  obtain ⟨y, _, rfl⟩ := hx
  exact mul_self_nonneg y

/-- The executable silence test agrees with the source's
`np.sqrt(np.mean(chunk ** 2)) < threshold` in exact arithmetic. -/
theorem rms_below_iff_sqrt (w : List ℚ) (t : ℚ) (hw : w ≠ []) (ht : 0 ≤ t) :
    rms_below w t = true ↔
      Real.sqrt ((sumSq w : ℝ) / (w.length : ℝ)) < (t : ℝ) := by
  have hn : 0 < (w.length : ℝ) := by
    have h0 : 0 < w.length := List.length_pos.mpr hw
    exact_mod_cast h0
  rw [rms_below, decide_eq_true_iff]
  rcases eq_or_lt_of_le ht with rfl | htpos
  · constructor
    · intro h
      exfalso
      have hs := sumSq_nonneg w
      have h2 : (0:ℚ) ^ 2 * (w.length : ℚ) = 0 := by ring
      rw [h2] at h
      linarith
    · intro h
      exfalso
      have hs := Real.sqrt_nonneg ((sumSq w : ℝ) / (w.length : ℝ))
      have : ((0:ℚ) : ℝ) = 0 := by norm_num
      rw [this] at h
      linarith
  · have htR : (0:ℝ) < (t:ℝ) := by exact_mod_cast htpos
    rw [Real.sqrt_lt' htR, div_lt_iff₀ hn]
    constructor
    · intro h
      exact_mod_cast h
    · intro h
      exact_mod_cast h

/-- If the window is silent, `_run_inference` returns immediately with no
engine call, no state change and no callback. -/
theorem run_inference_silent (cfg : Config) (engine : List ℚ → EngineResult)
    (st : TState)
    (h : rms_below (read_last st cfg.chunk_samples) cfg.silence_threshold = true) :
    run_inference cfg engine st = (st, 0, []) := by
  unfold run_inference
  simp [h]

/-- The engine call count of `_run_inference` is 0 on a silent window and 1
otherwise. -/
theorem run_inference_calls (cfg : Config) (engine : List ℚ → EngineResult)
    (st : TState) :
    (run_inference cfg engine st).2.1 =
      if rms_below (read_last st cfg.chunk_samples) cfg.silence_threshold
      then 0 else 1 := by
  unfold run_inference
  by_cases h : rms_below (read_last st cfg.chunk_samples) cfg.silence_threshold = true
  · simp [h]
  · simp only [Bool.not_eq_true] at h
    simp only [h, Bool.false_eq_true, if_false]
    rcases heng : engine (read_last st cfg.chunk_samples) with e | ⟨segs, info⟩
    · rfl
    · rcases hd : st.detected_language with _ | l <;> rcases hi : info with _ | l' <;>
        simp only [hd, hi] <;>
          by_cases ht : pyStrip (pyJoin " " (segs.map Seg.text)) = "" <;>
            simp [ht] <;> split <;> rfl

/-- The stride counter consumes at least `stride_samples` queued samples per
inference invocation, so `stride * fires ≤ counter + samples fed`. -/
theorem process_loop_fires_le (cfg : Config) (engine : List ℚ → EngineResult) :
    ∀ (frames : List (List ℚ)) (st : TState) (acc : Nat),
    cfg.stride_samples * (process_loop cfg engine (st, acc) frames).2.1 ≤
      acc + (frames.map List.length).sum := by
  intro frames
  induction frames with
  | nil =>
    intro st acc
    simp [process_loop]
  | cons d rest ih =>
    intro st acc
    by_cases h : cfg.stride_samples ≤ acc + d.length
    · simp only [process_loop, process_step, if_pos h, List.map_cons, List.sum_cons]
      have hr := ih (run_inference cfg engine (ring_write cfg.buffer_size st d)).1 0
      have hmul : cfg.stride_samples *
          (1 + (process_loop cfg engine
            ((run_inference cfg engine (ring_write cfg.buffer_size st d)).1, 0)
            rest).2.1) =
          cfg.stride_samples + cfg.stride_samples *
            (process_loop cfg engine
              ((run_inference cfg engine (ring_write cfg.buffer_size st d)).1, 0)
              rest).2.1 := by ring
      omega
    · simp only [process_loop, process_step, if_neg h, List.map_cons, List.sum_cons,
        Nat.zero_add]
      have hr := ih (ring_write cfg.buffer_size st d) (acc + d.length)
      omega

/-- When every queued frame has exactly `stride_samples` samples, each frame
fires the inference step exactly once. -/
theorem process_loop_fires_exact (cfg : Config) (engine : List ℚ → EngineResult) :
    ∀ (frames : List (List ℚ)) (st : TState),
    (∀ f ∈ frames, f.length = cfg.stride_samples) →
    (process_loop cfg engine (st, 0) frames).2.1 = frames.length := by
  intro frames
  induction frames with
  | nil =>
    intro st _
    rfl
  | cons d rest ih =>
    intro st hf
    have hd : d.length = cfg.stride_samples := hf d (by simp)
    have hcond : cfg.stride_samples ≤ 0 + d.length := by omega
    simp only [process_loop, process_step, if_pos hcond, List.length_cons]
    rw [ih _ (fun g hg => hf g (by simp [hg]))]
    omega

/-- The `[1, 1]` trailing window of `stLoud` is well above the 0.015
threshold. -/
theorem rms_below_stLoud :
    rms_below (read_last stLoud cfgEx.chunk_samples) cfgEx.silence_threshold
      = false := by
  have hr : read_last stLoud cfgEx.chunk_samples = [1, 1] := by decide
  rw [hr]
  simp only [rms_below, decide_eq_false_iff_not, not_lt]
  norm_num [sumSq, cfgEx]

/-! ## Claim theorems -/

/-- C1: RingBuffer round-trip.  Starting from a freshly reset ring buffer, for
every sequence of writes (each block no longer than the capacity) and every
`n` with `n ≤ capacity` and `n ≤ total samples written`, reading the last `n`
samples ending at the write cursor returns exactly the last `n` samples
written, in order — including across wraparounds of the buffer. -/
theorem ringbuffer_roundtrip (cap : Nat) (hcap : 0 < cap) (st : TState)
    (frames : List (List ℚ)) (hfr : ∀ f ∈ frames, f.length ≤ cap)
    (n : Nat) (hn : n ≤ cap) (hn2 : n ≤ frames.flatten.length) :
    read_last (write_frames cap (reset_buffers cap st) frames) n =
      frames.flatten.drop (frames.flatten.length - n) := by
  have h1 := write_frames_inv cap hcap frames hfr [] (reset_buffers cap st)
    (ringInv_reset cap st)
  simp only [List.nil_append] at h1
  exact read_last_spec cap hcap _ _ h1 n hn hn2

/-- C1 witness: capacity 4, writes `[1,2,3]` then `[4,5,6]` (6 samples, one
wraparound); reading the last 4 samples returns `[3,4,5,6]`. -/
theorem ringbuffer_roundtrip_witness :
    read_last (write_frames 4 (reset_buffers 4 stEx) [[1, 2, 3], [4, 5, 6]]) 4 =
      [3, 4, 5, 6] := by
  rw [ringbuffer_roundtrip 4 (by decide) stEx [[1, 2, 3], [4, 5, 6]] (by decide) 4
    (by decide) (by decide)]
  decide

/-- C9 counterexample: a write that ends exactly at the end of the buffer
(capacity 4, cursor 0, block of 4) takes the non-wrap branch (`>` not `>=`)
and leaves the cursor at 4 = capacity, which is neither `(0 + 4) % 4 = 0` nor
inside `[0, capacity)`. -/
theorem write_cursor_counterexample :
    (ring_write 4 (reset_buffers 4 stEx) [1, 2, 3, 4]).write_index = 4 ∧
    ¬ (ring_write 4 (reset_buffers 4 stEx) [1, 2, 3, 4]).write_index < 4 ∧
    (ring_write 4 (reset_buffers 4 stEx) [1, 2, 3, 4]).write_index ≠ (0 + 4) % 4 := by
  decide

/-- C9 amended: after every write of a block of length ≤ capacity from a
cursor in `[0, capacity]`, the new cursor is congruent to
`(previous + length) % capacity` and lies in `[0, capacity]`; it equals
`(previous + length) % capacity` except when the write ends exactly at the
buffer end (`previous + length` a positive multiple of the capacity), in
which case it equals `capacity` rather than wrapping to 0. -/
theorem write_cursor_invariant (cap : Nat) (hcap : 0 < cap) (st : TState)
    (data : List ℚ) (hw : st.write_index ≤ cap) (hd : data.length ≤ cap) :
    (ring_write cap st data).write_index % cap =
      (st.write_index + data.length) % cap ∧
    (ring_write cap st data).write_index ≤ cap ∧
    ((ring_write cap st data).write_index = (st.write_index + data.length) % cap ∨
      ((ring_write cap st data).write_index = cap ∧
        (st.write_index + data.length) % cap = 0)) := by
  by_cases hc : cap < st.write_index + data.length
  · have hwi : (ring_write cap st data).write_index =
        st.write_index + data.length - cap := by
      simp [ring_write, hc]
      omega
    have hle : cap ≤ st.write_index + data.length := by omega
    have hsub : (st.write_index + data.length) % cap =
        (st.write_index + data.length - cap) % cap := Nat.mod_eq_sub_mod hle
    by_cases h2c : st.write_index + data.length = 2 * cap
    · refine ⟨?_, by omega, Or.inr ⟨by omega, ?_⟩⟩
      · rw [hwi, hsub]
      · rw [h2c]
        exact Nat.mul_mod_left 2 cap
    · have hlt : st.write_index + data.length - cap < cap := by omega
      have hval : (st.write_index + data.length) % cap =
          st.write_index + data.length - cap := by
        rw [hsub, Nat.mod_eq_of_lt hlt]
      refine ⟨by rw [hwi, hsub], by omega, Or.inl (by rw [hwi, hval])⟩
  · have hwi : (ring_write cap st data).write_index =
        st.write_index + data.length := by
      simp [ring_write, hc]
    by_cases hwn : st.write_index + data.length = cap
    · refine ⟨by rw [hwi], by omega, Or.inr ⟨by omega, ?_⟩⟩
      rw [hwn, Nat.mod_self]
    · have hval : (st.write_index + data.length) % cap =
          st.write_index + data.length := Nat.mod_eq_of_lt (by omega)
      exact ⟨by rw [hwi], by omega, Or.inl (by rw [hwi, hval])⟩

/-- C9 witness: capacity 4, cursor 3, block of 3 (wraparound): the new cursor
is `(3 + 3) % 4 = 2`. -/
theorem write_cursor_invariant_witness :
    (0 : Nat) < 4 ∧
    (ring_write 4 { stEx with ring_buffer := [0, 0, 0, 0], write_index := 3 }
      [1, 2, 3]).write_index % 4 = (3 + 3) % 4 := by
  refine ⟨by decide, ?_⟩
  have h := write_cursor_invariant 4 (by decide)
    { stEx with ring_buffer := [0, 0, 0, 0], write_index := 3 } [1, 2, 3]
    (by decide) (by decide)
  exact h.1

/-- C5: Inference-error atomicity.  If the recognition engine raises during a
window, the exception is caught inside `_run_inference`: the state is
returned unchanged (no segment appended, `detected_language` untouched), no
text callback fires, and the processor loop keeps consuming every remaining
frame with unchanged segments and detected language — the error never
propagates out of the inference step. -/
theorem inference_error_atomicity (cfg : Config) (e : Unit) (st : TState)
    (acc : Nat) (frames : List (List ℚ)) :
    (run_inference cfg (fun _ => Except.error e) st).1 = st ∧
    (run_inference cfg (fun _ => Except.error e) st).2.2 = [] ∧
    (process_loop cfg (fun _ => Except.error e) (st, acc) frames).2.2.2 = [] ∧
    (process_loop cfg (fun _ => Except.error e) (st, acc) frames).1.1.transcribed_segments
      = st.transcribed_segments ∧
    (process_loop cfg (fun _ => Except.error e) (st, acc) frames).1.1.detected_language
      = st.detected_language :=
  ⟨(run_inference_error_state cfg e st).1, (run_inference_error_state cfg e st).2,
    (process_loop_error cfg e frames st acc).1,
    (process_loop_error cfg e frames st acc).2.1,
    (process_loop_error cfg e frames st acc).2.2⟩

/-- C7: Idempotent stop.  Calling `stop_transcription` a second time (after a
completed stop, or with no prior start) produces no further change, and after
each call the session is Idle: `is_running` is false, the stream handle is
cleared, and the processor thread handle is cleared. -/
theorem stop_idempotent (st : TState) :
    isIdle (stop_transcription st) ∧
    stop_transcription (stop_transcription st) = stop_transcription st ∧
    isIdle (stop_transcription (stop_transcription st)) :=
  ⟨⟨rfl, rfl, rfl⟩, rfl, ⟨rfl, rfl, rfl⟩⟩

/-- C6: Silence gating.  On a stride trigger the recognition engine is called
(exactly once) iff the RMS energy `sqrt(mean(window²))` of the extracted
trailing window is not below `silence_threshold`; on a window whose RMS is
below the threshold, `_run_inference` returns with no engine call and no
change to segments, detected language, or transcribed text (the state is
returned unchanged and no callback fires). -/
theorem silence_gating (cfg : Config) (engine : List ℚ → EngineResult)
    (st : TState) (hth : 0 ≤ cfg.silence_threshold)
    (hw : read_last st cfg.chunk_samples ≠ []) :
    ((run_inference cfg engine st).2.1 = 1 ↔
      ¬ Real.sqrt ((sumSq (read_last st cfg.chunk_samples) : ℝ) /
          ((read_last st cfg.chunk_samples).length : ℝ))
        < (cfg.silence_threshold : ℝ)) ∧
    (Real.sqrt ((sumSq (read_last st cfg.chunk_samples) : ℝ) /
        ((read_last st cfg.chunk_samples).length : ℝ))
      < (cfg.silence_threshold : ℝ) →
      run_inference cfg engine st = (st, 0, [])) := by
  have hb := rms_below_iff_sqrt (read_last st cfg.chunk_samples)
    cfg.silence_threshold hw hth
  constructor
  · rw [run_inference_calls]
    cases hrb : rms_below (read_last st cfg.chunk_samples) cfg.silence_threshold with
    | false =>
      rw [hrb] at hb
      simp only [if_neg (by simp : ¬ (false = true))]
      constructor
      · intro _
        intro hs
        exact absurd (hb.mpr hs) (by simp)
      · intro _
        trivial
    | true =>
      rw [hrb] at hb
      simp only [if_pos rfl]
      constructor
      · intro h0
        exact absurd h0 (by decide)
      · intro hns
        exact absurd (hb.mp rfl) hns
  · intro hs
    exact run_inference_silent cfg engine st (hb.mpr hs)

/-- C6 witness: the all-zero trailing window of a freshly reset buffer is
silent (RMS 0 < 0.015), so inference on it is a no-op with zero engine
calls. -/
theorem silence_gating_witness :
    (0 : ℚ) ≤ cfgEx.silence_threshold ∧
    read_last (reset_buffers 4 stEx) cfgEx.chunk_samples ≠ [] ∧
    run_inference cfgEx engineErr (reset_buffers 4 stEx) =
      (reset_buffers 4 stEx, 0, []) := by
  refine ⟨by norm_num [cfgEx], by decide, ?_⟩
  apply (silence_gating cfgEx engineErr (reset_buffers 4 stEx)
    (by norm_num [cfgEx]) (by decide)).2
  have hz : sumSq (read_last (reset_buffers 4 stEx) cfgEx.chunk_samples) = 0 := by
    have hr : read_last (reset_buffers 4 stEx) cfgEx.chunk_samples = [0, 0] := by
      decide
    rw [hr]
    simp [sumSq]
  rw [hz]
  have h0 : ((0 : ℚ) : ℝ) = 0 := by norm_num
  rw [h0, zero_div, Real.sqrt_zero]
  norm_num [cfgEx]

/-- C3 counterexample: the first inference result past the gate carries a
truthy `info` (language "en") but an empty text; the code nevertheless sets
`detected_language` to "en", while the claim says it is only set from the
first result whose text is non-empty. -/
theorem language_stickiness_counterexample :
    stLoud.detected_language = none ∧
    pyStrip (pyJoin " " (([] : List Seg).map Seg.text)) = "" ∧
    (run_inference cfgEx (fun _ => Except.ok ([], some "en"))
      stLoud).1.detected_language = some "en" := by
  refine ⟨by decide, by decide, ?_⟩
  simp only [run_inference, rms_below_stLoud, Bool.false_eq_true, if_false]
  decide

/-- C3 amended: `detected_language` is set exactly once, from the first
inference result that passes the silence gate and carries a truthy `info` —
regardless of whether that result's text is empty — and it is never
overwritten afterwards, whatever language later results carry. -/
theorem language_stickiness (cfg : Config) (engine : List ℚ → EngineResult)
    (st : TState) :
    (∀ l, st.detected_language = some l →
      (run_inference cfg engine st).1.detected_language = some l) ∧
    (∀ segs lang, st.detected_language = none →
      rms_below (read_last st cfg.chunk_samples) cfg.silence_threshold = false →
      engine (read_last st cfg.chunk_samples) = Except.ok (segs, some lang) →
      (run_inference cfg engine st).1.detected_language = some lang) := by
  constructor
  · intro l hl
    unfold run_inference
    by_cases h : rms_below (read_last st cfg.chunk_samples) cfg.silence_threshold = true
    · simp [h, hl]
    · simp only [Bool.not_eq_true] at h
      simp only [h, Bool.false_eq_true, if_false]
      rcases heng : engine (read_last st cfg.chunk_samples) with e | ⟨segs, info⟩
      · exact hl
      · simp only [hl]
        by_cases ht : pyStrip (pyJoin " " (segs.map Seg.text)) = ""
        · simp [ht, hl]
        · simp [ht, hl]
          split <;> simp [hl]
  · intro segs lang hd hgate heng
    unfold run_inference
    simp only [hgate, Bool.false_eq_true, if_false, heng]
    simp only [hd]
    by_cases ht : pyStrip (pyJoin " " (segs.map Seg.text)) = ""
    · simp [ht]
    · simp [ht]
      split <;> simp

/-- C3 witness: with no language yet detected, a first gate-passing result
with language "es" sets `detected_language` to "es". -/
theorem language_stickiness_witness :
    stLoud.detected_language = none ∧
    rms_below (read_last stLoud cfgEx.chunk_samples) cfgEx.silence_threshold
      = false ∧
    (run_inference cfgEx (fun _ => Except.ok ([], some "es"))
      stLoud).1.detected_language = some "es" :=
  ⟨by decide, rms_below_stLoud,
    (language_stickiness cfgEx (fun _ => Except.ok ([], some "es")) stLoud).2
      [] "es" (by decide) rms_below_stLoud rfl⟩

/-- C8 counterexample: a window that passes the silence gate but whose engine
result contains no segments yields an empty joined text, and the code fires
no callback at all — the claim's "exactly once per gate-passing window"
fails. -/
theorem text_callback_counterexample :
    rms_below (read_last stLoud cfgEx.chunk_samples) cfgEx.silence_threshold
      = false ∧
    stLoud.has_result_callback = true ∧
    (run_inference cfgEx (fun _ => Except.ok ([], some "en")) stLoud).2.2
      = [] := by
  refine ⟨rms_below_stLoud, by decide, ?_⟩
  simp only [run_inference, rms_below_stLoud, Bool.false_eq_true, if_false]
  decide

/-- C8 amended: for every inference window that passes the silence gate, with
the engine succeeding and the result callback set, the callback is invoked
exactly once with the space-joined, stripped concatenation of the
sub-segment texts — provided that text is non-empty; when the joined text is
empty (e.g. no sub-segments) no callback fires. -/
theorem text_callback_delivery (cfg : Config) (engine : List ℚ → EngineResult)
    (st : TState) (segs : List Seg) (info : Option String)
    (hgate : rms_below (read_last st cfg.chunk_samples) cfg.silence_threshold
      = false)
    (heng : engine (read_last st cfg.chunk_samples) = Except.ok (segs, info))
    (hcb : st.has_result_callback = true) :
    (run_inference cfg engine st).2.2 =
      if pyStrip (pyJoin " " (segs.map Seg.text)) = "" then []
      else [pyStrip (pyJoin " " (segs.map Seg.text))] := by
  unfold run_inference
  simp only [hgate, Bool.false_eq_true, if_false, heng]
  by_cases ht : pyStrip (pyJoin " " (segs.map Seg.text)) = "" <;>
    rcases hd : st.detected_language with _ | l <;>
      rcases hi : info with _ | l' <;> simp [ht, hcb]

/-- C8 witness: a gate-passing window whose engine result has one segment
with text "hi" fires the callback exactly once with "hi". -/
theorem text_callback_delivery_witness :
    rms_below (read_last stLoud cfgEx.chunk_samples) cfgEx.silence_threshold
      = false ∧
    stLoud.has_result_callback = true ∧
    (run_inference cfgEx (fun _ => Except.ok ([⟨0, 1, "hi"⟩], some "en"))
      stLoud).2.2 = ["hi"] := by
  refine ⟨rms_below_stLoud, by decide, ?_⟩
  have h := text_callback_delivery cfgEx
    (fun _ => Except.ok ([⟨0, 1, "hi"⟩], some "en")) stLoud
    [⟨0, 1, "hi"⟩] (some "en") rms_below_stLoud rfl (by decide)
  rw [h]
  decide

/-- C10 counterexample: an engine whose `info.language` is the empty string
sets `detected_language` to `some ""`, yet `get_transcription_data` returns
the configured session language "en" — not the detected one as the claim
states (Python `or` treats the empty string as falsy). -/
theorem transcript_language_counterexample :
    (run_inference cfgEx (fun _ => Except.ok ([], some ""))
      stLoud).1.detected_language = some "" ∧
    (get_transcription_data
      (run_inference cfgEx (fun _ => Except.ok ([], some "")) stLoud).1).language
      = "en" ∧
    ("en" : String) ≠ "" := by
  refine ⟨?_, ?_, by decide⟩ <;>
    simp only [run_inference, rms_below_stLoud, Bool.false_eq_true, if_false] <;>
      decide

/-- C10 amended: `get_transcription_data` always returns a language string:
the detected language when it was set to a non-empty string, and otherwise
(unset, or set to the empty string, which Python's `or` treats as falsy) the
configured session language — in particular the configured language when no
inference ever ran and the segment list is empty. -/
theorem transcript_language_fallback (st : TState) :
    (st.detected_language = none →
      (get_transcription_data st).language = st.language) ∧
    (∀ l, st.detected_language = some l → l ≠ "" →
      (get_transcription_data st).language = l) ∧
    (∀ l, st.detected_language = some l → l = "" →
      (get_transcription_data st).language = st.language) := by
  refine ⟨?_, ?_, ?_⟩
  · intro hd
    simp [get_transcription_data, hd]
  · intro l hd hne
    simp [get_transcription_data, hd, hne]
  · intro l hd he
    simp [get_transcription_data, hd, he]

/-- C10 witness: fresh session, no inference, empty segment list: the
returned language is the configured "en". -/
theorem transcript_language_fallback_witness :
    stEx.detected_language = none ∧
    stEx.transcribed_segments = [] ∧
    (get_transcription_data stEx).language = stEx.language :=
  ⟨by decide, by decide, (transcript_language_fallback stEx).1 (by decide)⟩

/-- C2 counterexample: stride 2, stream of 4 = 2·stride samples partitioned
as `[3-sample frame, 1-sample frame]`.  The first frame fires once and the
counter resets to 0, discarding the 1-sample overshoot, so the second frame
leaves the counter at 1 < 2: the loop fires once, not `k = 2` times. -/
theorem stride_triggering_counterexample :
    (List.map List.length [[(0:ℚ), 0, 0], [0]]).sum = 2 * cfgEx.stride_samples ∧
    (process_loop cfgEx engineErr (reset_buffers 4 stEx, 0)
      [[0, 0, 0], [0]]).2.1 = 1 ∧
    (1 : Nat) ≠ 2 := by
  refine ⟨by decide, ?_, by decide⟩
  simp [process_loop, process_step, cfgEx]

/-- C2 amended: for every `k ≥ 1` and every partition of a stream of exactly
`k * stride_samples` samples into queued frames, the processor loop invokes
the inference step at most `k` times, and exactly `k` times when every frame
has length exactly `stride_samples`.  (The counter resets to zero on firing,
so a frame straddling a stride boundary loses its overshoot and the loop may
fire fewer than `k` times.) -/
theorem stride_triggering (cfg : Config) (engine : List ℚ → EngineResult)
    (st : TState) (k : Nat) (_hk : 1 ≤ k) (hs : 0 < cfg.stride_samples)
    (frames : List (List ℚ))
    (htot : (frames.map List.length).sum = k * cfg.stride_samples) :
    (process_loop cfg engine (st, 0) frames).2.1 ≤ k ∧
    ((∀ f ∈ frames, f.length = cfg.stride_samples) →
      (process_loop cfg engine (st, 0) frames).2.1 = k) := by
  constructor
  · have hle := process_loop_fires_le cfg engine frames st 0
    rw [htot] at hle
    have h2 : cfg.stride_samples * (process_loop cfg engine (st, 0) frames).2.1 ≤
        cfg.stride_samples * k := by
      have hcomm : k * cfg.stride_samples = cfg.stride_samples * k := by ring
      omega
    exact Nat.le_of_mul_le_mul_left h2 hs
  · intro hall
    rw [process_loop_fires_exact cfg engine frames st hall]
    have hrep : frames.map List.length =
        List.replicate frames.length cfg.stride_samples := by
      apply List.eq_replicate_iff.mpr
      refine ⟨by simp, ?_⟩
      intro b hb
      simp only [List.mem_map] at hb
      obtain ⟨f, hf, rfl⟩ := hb
      exact hall f hf
    rw [hrep, List.sum_replicate, smul_eq_mul] at htot
    exact Nat.eq_of_mul_eq_mul_right hs htot

/-- C2 witness: stride 2, `k = 2`, two frames of exactly 2 samples each: the
loop fires exactly twice. -/
theorem stride_triggering_witness :
    (1 : Nat) ≤ 2 ∧ 0 < cfgEx.stride_samples ∧
    (List.map List.length [[(0:ℚ), 0], [0, 0]]).sum = 2 * cfgEx.stride_samples ∧
    (process_loop cfgEx engineErr (reset_buffers 4 stEx, 0)
      [[0, 0], [0, 0]]).2.1 = 2 := by
  refine ⟨by decide, by decide, by decide, ?_⟩
  exact (stride_triggering cfgEx engineErr (reset_buffers 4 stEx) 2 (by decide)
    (by decide) [[0, 0], [0, 0]] (by decide)).2 (by decide)

/-- C4 counterexample: exporting the single sample 0.5 writes the int16 value
`np.int16(0.5 * 32767) = 16383` (truncation toward zero), not
`round(0.5 * 32767) = 16384` as the claim states. -/
theorem export_conversion_counterexample :
    save_recording cfgEx { stEx with full_audio_buffer := [[1/2]] } "out.wav" =
      some { path := "out.wav", nchannels := 1, sampwidth := 2,
             framerate := 16000, frames := [16383] } ∧
    round ((1/2 : ℚ) * 32767) = 16384 ∧
    (16383 : ℤ) ≠ 16384 := by
  refine ⟨?_, by rw [round_eq]; norm_num, by decide⟩
  norm_num [save_recording, cfgEx, int16_of]

/-- C4 amended: for every non-empty recording log, `save_recording` converts
each sample `x` to the signed 16-bit value obtained by truncating
`x * 32767` toward zero (`np.int16` cast, not `round`), writes a mono WAV at
the session sample rate and width 2, and returns the path; every sample
`x ∈ [-1, 1]` converts to a value in `[-32767, 32767]`. -/
theorem export_sample_conversion (cfg : Config) (st : TState) (path : String)
    (hne : st.full_audio_buffer ≠ []) :
    save_recording cfg st path = some
      { path := path
        nchannels := cfg.channels
        sampwidth := 2
        framerate := cfg.sample_rate
        frames := st.full_audio_buffer.flatten.map (fun x => int16_of (x * 32767)) } ∧
    (∀ x : ℚ, -1 ≤ x → x ≤ 1 →
      -32767 ≤ int16_of (x * 32767) ∧ int16_of (x * 32767) ≤ 32767) := by
  constructor
  · simp [save_recording, hne]
  · intro x hx1 hx2
    have hq1 : -(32767 : ℚ) ≤ x * 32767 := by nlinarith
    have hq2 : x * 32767 ≤ 32767 := by nlinarith
    unfold int16_of
    by_cases h : 0 ≤ x * 32767
    · rw [if_pos h]
      constructor
      · have h0 : (0 : ℤ) ≤ ⌊x * 32767⌋ := Int.le_floor.mpr (by exact_mod_cast h)
        omega
      · have hf : (⌊x * 32767⌋ : ℚ) ≤ x * 32767 := Int.floor_le _
        have h32 : (⌊x * 32767⌋ : ℚ) ≤ 32767 := le_trans hf hq2
        exact_mod_cast h32
    · rw [if_neg h]
      push_neg at h
      constructor
      · have hc : x * 32767 ≤ (⌈x * 32767⌉ : ℚ) := Int.le_ceil _
        have h32 : -(32767 : ℚ) ≤ (⌈x * 32767⌉ : ℚ) := le_trans hq1 hc
        exact_mod_cast h32
      · have hc : ⌈x * 32767⌉ ≤ 0 := Int.ceil_le.mpr (by exact_mod_cast h.le)
        omega

/-- C4 witness: exporting the one-frame log `[[1]]` yields a mono 16-bit WAV
at the configured rate whose single sample is the truncation of `1·32767`. -/
theorem export_sample_conversion_witness :
    ({ stEx with full_audio_buffer := [[(1:ℚ)]] } : TState).full_audio_buffer ≠ [] ∧
    save_recording cfgEx { stEx with full_audio_buffer := [[(1:ℚ)]] } "w.wav" =
      some { path := "w.wav"
             nchannels := cfgEx.channels
             sampwidth := 2
             framerate := cfgEx.sample_rate
             frames := ([[(1:ℚ)]] : List (List ℚ)).flatten.map
               (fun x => int16_of (x * 32767)) } :=
  ⟨by decide,
    (export_sample_conversion cfgEx { stEx with full_audio_buffer := [[(1:ℚ)]] }
      "w.wav" (by decide)).1⟩

end Insightron
